import Mathlib

/-!
# Verification of the ttlcache repository core

Shallow embedding of the `moeryomenko/ttlcache` Go repository:

* `src/cache.go` — the facade `Cache` (Set, SetNX, Get, Remove, Len,
  emplaceToTTLBucket, removeFromTTL, collectExpired, removeExpired, evict);
* `src/internal/policies/noop.go` — `NoEvictionCache`;
* `src/internal/policies/lru.go` — `LRUCache`;
* `src/unnamed/part_005` (= `internal/policies/lfu.go`) — `LFUCache`;
* `src/internal/policies/arc.go` — `ARCCache`.

Modelling conventions:

* Go `uint64` values are `Nat` with explicit `% 2 ^ 64` where Go wraps
  (epoch increment, bucket-index computation, the downward loop counter of
  `removeExpired`).
* Go maps are association lists with at most one binding per key; map
  assignment replaces the binding in place or appends a fresh one, deletion
  removes the binding.  Go's nondeterministic set/map iteration order in the
  LFU frequency buckets is determinised to insertion order.
* Go `time.Duration` quantities (ttl, granularity) are `Nat` (the claims
  only concern non-negative durations); Go's integer division of durations
  truncates, which is `Nat` division.
* The Go slice expression `append(slots[:slot], slots[slot+1:]...)` in
  `removeFromTTL` panics when `slot+1 > len(slots)`; it is totalised here as
  `take slot ++ drop (slot+1)`, which agrees with Go on every in-range slot.
  No claim below exercises the out-of-range (panicking) path.
* The background sweeper goroutine is modelled by exposing `collectExpired`
  as an explicit step; every facade method runs under the single spinlock,
  so a run is a sequence of atomic operations.
-/

/-- 2^64, the modulus of Go's `uint64` arithmetic. -/
def U64 : Nat := 2 ^ 64

/-- `math.MaxUint64`, the sentinel epoch meaning "no expiry". -/
def U64MAX : Nat := U64 - 1

/-! ## Association lists with Go-map semantics (string keys) -/

/-- Lookup in a Go map modelled as an association list. -/
def afind {α : Type} (k : String) : List (String × α) → Option α
  | [] => none
  | (k2, v) :: rest => if k2 = k then some v else afind k rest

/-- Go map assignment `m[k] = v`: replace the binding in place or append. -/
def aset {α : Type} (k : String) (v : α) : List (String × α) → List (String × α)
  | [] => [(k, v)]
  | (k2, v2) :: rest => if k2 = k then (k, v) :: rest else (k2, v2) :: aset k v rest

/-- Go map deletion `delete(m, k)`: drop the binding for `k`.  (A Go map
has at most one binding per key; removing every matching pair is the same
operation on the association-list representation.) -/
def aerase {α : Type} (k : String) : List (String × α) → List (String × α)
  | [] => []
  | (k2, v2) :: rest => if k2 = k then aerase k rest else (k2, v2) :: aerase k rest

/-! ## The TTL bucket map (uint64 keys, `map[uint64][]string` in Go) -/

/-- Lookup `m[i]` in the TTL map. -/
def tfind (i : Nat) : List (Nat × List String) → Option (List String)
  | [] => none
  | (j, b) :: rest => if j = i then some b else tfind i rest

/-- Go map assignment `m[i] = b` for the TTL map. -/
def tset (i : Nat) (b : List String) : List (Nat × List String) → List (Nat × List String)
  | [] => [(i, b)]
  | (j, b2) :: rest => if j = i then (i, b) :: rest else (j, b2) :: tset i b rest

/-- Go map deletion `delete(m, i)` for the TTL map (same convention as
`aerase`). -/
def terase (i : Nat) : List (Nat × List String) → List (Nat × List String)
  | [] => []
  | (j, b) :: rest => if j = i then terase i rest else (j, b) :: terase i rest

/-! ## The facade data model (`src/cache.go`) -/

/-- The `entry` struct of `src/cache.go`: a value plus the `(epoch, slot)`
coordinates of its TTL-bucket membership. -/
structure Entry (V : Type) where
  value : V
  epoch : Nat
  slot : Nat
  deriving Repr, DecidableEq

/-- The `replacementCacher` interface of `src/cache.go`, as a record of
operations over a policy state `σ`.  `pget` returns the possibly mutated
receiver because Go policy `Get` methods update recency metadata. -/
structure PolicyImpl (σ : Type) (α : Type) where
  pset : σ → String → α → σ
  pget : σ → String → Option α × σ
  premove : σ → String → σ
  pevict : σ → Nat → σ
  plen : σ → Nat

/-- The `Cache` struct of `src/cache.go` (minus the lock, which serialises
operations and is modelled by atomicity of each step). -/
structure CacheState (σ : Type) where
  pol : σ
  capacity : Nat
  epoch : Nat
  granularity : Nat
  ttlMap : List (Nat × List String)

/-- A fresh facade state as built by `NewCache`. -/
def newCache {σ : Type} (pol0 : σ) (capacity granularity : Nat) : CacheState σ :=
  { pol := pol0, capacity := capacity, epoch := 0, granularity := granularity, ttlMap := [] }

/-- `Cache.emplaceToTTLBucket`: `index := uint64(expiration/c.granularity) + c.epoch`
(uint64 wrap-around addition), then append the key to `ttlMap[index]`. -/
def emplaceToTTLBucket {σ : Type} (c : CacheState σ) (key : String) (expiration : Nat) :
    (Nat × Nat) × CacheState σ :=
  let index := (expiration / c.granularity + c.epoch) % U64
  match tfind index c.ttlMap with
  | some bucket =>
      let bucket2 := bucket ++ [key]
      ((index, bucket2.length - 1), { c with ttlMap := tset index bucket2 c.ttlMap })
  | none => ((index, 0), { c with ttlMap := tset index [key] c.ttlMap })

/-- `Cache.removeFromTTL`: left-shift removal of position `slot` from
`ttlMap[epoch]`.  Go panics when `slot+1 > len(slots)`; totalised (see the
module docstring). -/
def removeFromTTL {σ : Type} (c : CacheState σ) (epoch slot : Nat) : CacheState σ :=
  let slots := (tfind epoch c.ttlMap).getD []
  { c with ttlMap := tset epoch (slots.take slot ++ slots.drop (slot + 1)) c.ttlMap }

/-- The loop body of `Cache.removeExpired` in `src/cache.go`:

```go
for epochCounter := c.epoch; epochCounter >= 0; epochCounter-- {
    epochBucket, ok := c.ttlMap[epochCounter]
    if !ok { return removeCount }
    for _, key := range epochBucket { c.cache.Remove(key) }
    delete(c.ttlMap, epochCounter)
}
```

The counter is a `uint64`, so `epochCounter >= 0` is always true and
`epochCounter--` wraps from `0` to `2^64-1`; the loop exits only at a missing
bucket.  A Go map has at most `2^64` distinct `uint64` keys, hence the loop
runs at most `2^64 + 1` iterations; `fuel = 2^64 + 1` makes the model total
without changing any reachable behaviour.  `cnt` threads `removeCount`,
which the body never increments. -/
def sweepLoop {σ α : Type} (P : PolicyImpl σ α) :
    Nat → Nat → Nat → σ → List (Nat × List String) →
    Nat × σ × List (Nat × List String)
  | 0, cnt, _, pol, m => (cnt, pol, m)
  | Nat.succ fuel, cnt, counter, pol, m =>
    match tfind counter m with
    | none => (cnt, pol, m)
    | some bucket =>
        sweepLoop P fuel cnt ((counter + U64MAX) % U64)
          (bucket.foldl (fun p k => P.premove p k) pol) (terase counter m)

/-- `Cache.removeExpired`: returns `removeCount` (never incremented by the
loop) and the updated state. -/
def removeExpired {σ α : Type} (P : PolicyImpl σ α) (c : CacheState σ) :
    Nat × CacheState σ :=
  let r := sweepLoop P (U64 + 1) 0 c.epoch c.pol c.ttlMap
  (r.1, { c with pol := r.2.1, ttlMap := r.2.2 })

/-- `Cache.evict`: sweep, then `if count <= removed return`, else
`c.cache.Evict(count - removed)`. -/
def cacheEvict {σ α : Type} (P : PolicyImpl σ α) (c : CacheState σ) (count : Nat) :
    CacheState σ :=
  let r := removeExpired P c
  if count ≤ r.1 then r.2
  else { r.2 with pol := P.pevict r.2.pol (count - r.1) }

/-- `Cache.collectExpired`: sweep, then `c.epoch++` (deferred, i.e. after the
sweep) with uint64 wrap-around. -/
def collectExpired {σ α : Type} (P : PolicyImpl σ α) (c : CacheState σ) : CacheState σ :=
  let c2 := (removeExpired P c).2
  { c2 with epoch := (c2.epoch + 1) % U64 }

/-- `Cache.Set`: store the entry with the `math.MaxUint64` no-expiry epoch,
then evict one entry if the policy size exceeds the capacity. -/
def cacheSet {σ V : Type} (P : PolicyImpl σ (Entry V)) (c : CacheState σ)
    (key : String) (value : V) : CacheState σ :=
  let pol1 := P.pset c.pol key ⟨value, U64MAX, 0⟩
  let c1 := { c with pol := pol1 }
  if c1.capacity < P.plen pol1 then cacheEvict P c1 1 else c1

/-- `Cache.SetNX`: unlink the previous TTL binding if the key is present,
place the key into its TTL bucket, store the entry, then evict on overflow. -/
def cacheSetNX {σ V : Type} (P : PolicyImpl σ (Entry V)) (c : CacheState σ)
    (key : String) (value : V) (expiry : Nat) : CacheState σ :=
  let g := P.pget c.pol key
  let c1 := { c with pol := g.2 }
  let c2 := match g.1 with
    | some e => removeFromTTL c1 e.epoch e.slot
    | none => c1
  let r := emplaceToTTLBucket c2 key expiry
  let c3 := { r.2 with pol := P.pset r.2.pol key ⟨value, r.1.1, r.1.2⟩ }
  if c3.capacity < P.plen c3.pol then cacheEvict P c3 1 else c3

/-- `Cache.Get`: a plain policy lookup; the stored value is returned whenever
the policy reports a hit (no expiry check in `src/cache.go`). -/
def cacheGet {σ V : Type} (P : PolicyImpl σ (Entry V)) (c : CacheState σ)
    (key : String) : Option V × CacheState σ :=
  let g := P.pget c.pol key
  match g.1 with
  | some e => (some e.value, { c with pol := g.2 })
  | none => (none, { c with pol := g.2 })

/-- `Cache.Remove`: a plain policy removal (the TTL binding is not touched). -/
def cacheRemove {σ V : Type} (P : PolicyImpl σ (Entry V)) (c : CacheState σ)
    (key : String) : CacheState σ :=
  { c with pol := P.premove c.pol key }

/-- `Cache.Len`. -/
def cacheLen {σ α : Type} (P : PolicyImpl σ α) (c : CacheState σ) : Nat :=
  P.plen c.pol

/-! ## The NoEviction policy (`src/internal/policies/noop.go`) -/

/-- `NoEvictionCache` is a plain Go map. -/
def NoopState (α : Type) := List (String × α)

/-- The `NoEvictionCache` method set: `Evict` is a no-op. -/
def noopPolicy (α : Type) : PolicyImpl (NoopState α) α where
  pset s k v := aset k v s
  pget s k := (afind k s, s)
  premove s k := aerase k s
  pevict s _ := s
  plen s := s.length

/-- `NewNoEvictionCache`: an empty map. -/
def newNoop (α : Type) : NoopState α := ([] : List (String × α))

/-! ## The LRU policy (`src/internal/policies/lru.go`) -/

/-- `LRUCache`: the `evictList` (most-recent-first) with its implicit
`items` index, plus the capacity. -/
structure LRUCacheM (α : Type) where
  items : List (String × α)
  capacity : Nat

/-- `NewLRUCache`. -/
def newLRU (α : Type) (capacity : Nat) : LRUCacheM α :=
  { items := [], capacity := capacity }

/-- `LRUCache.Evict`: unlink up to `count` tail nodes. -/
def lruEvict {α : Type} (s : LRUCacheM α) (count : Nat) : LRUCacheM α :=
  { s with items := s.items.take (s.items.length - count) }

/-- `LRUCache.Set`: on a hit, move the node to the front and overwrite its
value; on a miss, evict one tail node when at capacity, then push front. -/
def lruSet {α : Type} (s : LRUCacheM α) (key : String) (value : α) : LRUCacheM α :=
  match afind key s.items with
  | some _ => { s with items := (key, value) :: aerase key s.items }
  | none =>
      let s1 := if s.capacity ≤ s.items.length then lruEvict s 1 else s
      { s1 with items := (key, value) :: s1.items }

/-- `LRUCache.Get`: on a hit, move the node to the front and return its
value. -/
def lruGet {α : Type} (s : LRUCacheM α) (key : String) : Option α × LRUCacheM α :=
  match afind key s.items with
  | some v => (some v, { s with items := (key, v) :: aerase key s.items })
  | none => (none, s)

/-- `LRUCache.Remove`. -/
def lruRemove {α : Type} (s : LRUCacheM α) (key : String) : LRUCacheM α :=
  { s with items := aerase key s.items }

/-- `LRUCache.Len`. -/
def lruLen {α : Type} (s : LRUCacheM α) : Nat := s.items.length

/-- The `LRUCache` method set as a `replacementCacher`. -/
def lruPolicy (α : Type) : PolicyImpl (LRUCacheM α) α where
  pset := lruSet
  pget := lruGet
  premove := lruRemove
  pevict := lruEvict
  plen := lruLen

/-! ## The LFU policy (`src/unnamed/part_005`, `internal/policies/lfu.go`)

The `freqList` is a list of frequency buckets, front first; each bucket
holds its frequency and its member items.  The Go `items` index and the
per-item `freqElement` back-pointer are represented by the position of the
item inside the bucket list.  Go iterates bucket members in nondeterministic
set order; the model determinises that to insertion order. -/

/-- The LFU state: the `freqList` (each bucket holds `(freq, members)`) and
the capacity.  `NewLFUCache` pushes a permanent `freq=0` head bucket. -/
structure LFUCacheM (α : Type) where
  buckets : List (Nat × List (String × α))
  capacity : Nat

/-- `NewLFUCache`. -/
def newLFU (α : Type) (capacity : Nat) : LFUCacheM α :=
  { buckets := [(0, [])], capacity := capacity }

/-- Lookup through the bucket list (the `items` index of the Go code). -/
def bfind {α : Type} (k : String) : List (Nat × List (String × α)) → Option α
  | [] => none
  | (_, its) :: rest =>
      match afind k its with
      | some v => some v
      | none => bfind k rest

/-- Overwrite the value of the item with key `k` in place. -/
def bupdate {α : Type} (k : String) (v : α) :
    List (Nat × List (String × α)) → List (Nat × List (String × α)) :=
  List.map fun b => (b.1, b.2.map fun p => if p.1 = k then (k, v) else p)

/-- Attach a fresh item to the `freqList.Front()` bucket.  (Go dereferences
the front element unconditionally; an empty bucket list is unreachable from
`NewLFUCache` and is totalised as a no-op.) -/
def battach {α : Type} (k : String) (v : α) :
    List (Nat × List (String × α)) → List (Nat × List (String × α))
  | [] => []
  | (f, its) :: rest => (f, its ++ [(k, v)]) :: rest

/-- `removeItem` driven by the `items` index: drop the item with key `k`
from its bucket. -/
def bremove {α : Type} (k : String) :
    List (Nat × List (String × α)) → List (Nat × List (String × α))
  | [] => []
  | (f, its) :: rest =>
      match afind k its with
      | some _ => (f, aerase k its) :: rest
      | none => (f, its) :: bremove k rest

/-- Total number of items (`len(c.items)` in Go). -/
def blen {α : Type} (bs : List (Nat × List (String × α))) : Nat :=
  (bs.map fun b => b.2.length).sum

/-- `LFUCache.Evict`: walk the bucket list from the front, removing members
until `count` are gone or the list is exhausted.  Emptied buckets remain in
the list (Go leaves the `freqEntry` in `freqList`). -/
def bevict {α : Type} : Nat → List (Nat × List (String × α)) → List (Nat × List (String × α))
  | _, [] => []
  | n, (f, its) :: rest =>
      if n = 0 then (f, its) :: rest
      else if its.length ≤ n then (f, []) :: bevict (n - its.length) rest
      else (f, its.drop n) :: rest

/-- `LFUCache.Set`: on a hit, overwrite the value in place (frequency
unchanged); on a miss, attach to the `freq=0` head bucket. -/
def lfuSet {α : Type} (s : LFUCacheM α) (key : String) (value : α) : LFUCacheM α :=
  match bfind key s.buckets with
  | some _ => { s with buckets := bupdate key value s.buckets }
  | none => { s with buckets := battach key value s.buckets }

/-- `LFUCache.Get`: return the stored value; the receiver is not mutated
(no frequency update in the Go code). -/
def lfuGet {α : Type} (s : LFUCacheM α) (key : String) : Option α × LFUCacheM α :=
  (bfind key s.buckets, s)

/-- `LFUCache.Remove`. -/
def lfuRemove {α : Type} (s : LFUCacheM α) (key : String) : LFUCacheM α :=
  { s with buckets := bremove key s.buckets }

/-- `LFUCache.Evict` on the state. -/
def lfuEvict {α : Type} (s : LFUCacheM α) (count : Nat) : LFUCacheM α :=
  { s with buckets := bevict count s.buckets }

/-- `LFUCache.Len`. -/
def lfuLen {α : Type} (s : LFUCacheM α) : Nat := blen s.buckets

/-- The frequency of the bucket currently holding key `k` (metadata probe
used to state the frequency claims). -/
def lfuFreqOf {α : Type} (s : LFUCacheM α) (k : String) : Option Nat :=
  (s.buckets.find? fun b => (afind k b.2).isSome).map (·.1)

/-- The `LFUCache` method set as a `replacementCacher`. -/
def lfuPolicy (α : Type) : PolicyImpl (LFUCacheM α) α where
  pset := lfuSet
  pget := lfuGet
  premove := lfuRemove
  pevict := lfuEvict
  plen := lfuLen

/-! ## The ARC policy (`src/internal/policies/arc.go`)

Four LRU lists plus the adaptive target `prefer`.  Ghost writes store
`nil`; the model passes an explicit placeholder value `d`.  `contains` is
Go's helper built on `LRUCache.Get`, so a ghost-list probe mutates the
probed list's recency order; the model threads those mutations. -/

/-- The `ARCCache` struct. -/
structure ARCCacheM (α : Type) where
  t1 : LRUCacheM α
  b1 : LRUCacheM α
  t2 : LRUCacheM α
  b2 : LRUCacheM α
  capacity : Nat
  prefer : Nat

/-- `NewARCCache`: four LRUs of the full capacity, `prefer = 0`. -/
def newARC (α : Type) (capacity : Nat) : ARCCacheM α :=
  { t1 := newLRU α capacity, b1 := newLRU α capacity
    t2 := newLRU α capacity, b2 := newLRU α capacity
    capacity := capacity, prefer := 0 }

/-- `removeOldest`: pop the LRU tail, returning its key. -/
def removeOldest {α : Type} (s : LRUCacheM α) : Option String × LRUCacheM α :=
  match s.items.getLast? with
  | some p => (some p.1, { s with items := s.items.dropLast })
  | none => (none, s)

/-- `contains`: probe via `Get` (which moves a hit to the front). -/
def lruContains {α : Type} (s : LRUCacheM α) (key : String) : Bool × LRUCacheM α :=
  let g := lruGet s key
  (g.1.isSome, g.2)

/-- `ARCCache.replcae` (sic): demote the LRU tail of `T1` to `B1` when
`t1Len > 0 && (t1Len > prefer || (t1Len == prefer && direction))`, otherwise
demote the tail of `T2` to `B2`. -/
def arcReplcae {α : Type} (d : α) (c : ARCCacheM α) (direction : Bool) : ARCCacheM α :=
  let t1Len := lruLen c.t1
  if 0 < t1Len ∧ (c.prefer < t1Len ∨ (t1Len = c.prefer ∧ direction = true)) then
    let r := removeOldest c.t1
    match r.1 with
    | some k => { c with t1 := r.2, b1 := lruSet c.b1 k d }
    | none => { c with t1 := r.2 }
  else
    let r := removeOldest c.t2
    match r.1 with
    | some k => { c with t2 := r.2, b2 := lruSet c.b2 k d }
    | none => { c with t2 := r.2 }

/-- `ARCCache.Set`: the four-way branch of `src/internal/policies/arc.go`.
Note the `b1` ghost-hit branch calls `replcae(true)` and removes the key
from `b2` (not `b1`), exactly as the source does. -/
def arcSet {α : Type} (d : α) (c : ARCCacheM α) (key : String) (value : α) : ARCCacheM α :=
  let p1 := lruContains c.t1 key
  let c := { c with t1 := p1.2 }
  if p1.1 then
    { c with t1 := lruRemove c.t1 key, t2 := lruSet c.t2 key value }
  else
    let p2 := lruContains c.t2 key
    let c := { c with t2 := p2.2 }
    if p2.1 then
      { c with t2 := lruSet c.t2 key value }
    else
      let pb1 := lruContains c.b1 key
      let c := { c with b1 := pb1.2 }
      if pb1.1 then
        let b1Len := lruLen c.b1
        let b2Len := lruLen c.b2
        let delta := if b1Len < b2Len then b2Len / b1Len else 1
        let c := { c with prefer :=
          if c.capacity ≤ c.prefer + delta then c.capacity else c.prefer + delta }
        let c := if c.capacity ≤ lruLen c.t1 + lruLen c.t2 then arcReplcae d c true else c
        let c := { c with b2 := lruRemove c.b2 key }
        { c with t2 := lruSet c.t2 key value }
      else
        let c := if c.capacity ≤ lruLen c.t1 + lruLen c.t2 then arcReplcae d c false else c
        let c := if c.capacity - c.prefer < lruLen c.b1 then
          { c with b1 := (removeOldest c.b1).2 } else c
        let c := if c.prefer < lruLen c.b2 then
          { c with b2 := (removeOldest c.b2).2 } else c
        { c with t1 := lruSet c.t1 key value }

/-- `ARCCache.Get`: probe `T1` then `T2` (each probe refreshes recency
inside its own list; no promotion between lists). -/
def arcGet {α : Type} (c : ARCCacheM α) (key : String) : Option α × ARCCacheM α :=
  let g1 := lruGet c.t1 key
  match g1.1 with
  | some v => (some v, { c with t1 := g1.2 })
  | none =>
      let g2 := lruGet c.t2 key
      (g2.1, { c with t1 := g1.2, t2 := g2.2 })

/-- `ARCCache.Remove`: remove from all four lists. -/
def arcRemove {α : Type} (c : ARCCacheM α) (key : String) : ARCCacheM α :=
  { c with t1 := lruRemove c.t1 key, t2 := lruRemove c.t2 key
           b1 := lruRemove c.b1 key, b2 := lruRemove c.b2 key }

/-- `ARCCache.Evict`: evict `count` from `T1` and `count` from `T2`. -/
def arcEvict {α : Type} (c : ARCCacheM α) (count : Nat) : ARCCacheM α :=
  { c with t1 := lruEvict c.t1 count, t2 := lruEvict c.t2 count }

/-- `ARCCache.Len`: residents only. -/
def arcLen {α : Type} (c : ARCCacheM α) : Nat := lruLen c.t1 + lruLen c.t2

/-- The `ARCCache` method set as a `replacementCacher`; `d` models the `nil`
stored by ghost writes. -/
def arcPolicy (α : Type) (d : α) : PolicyImpl (ARCCacheM α) α where
  pset := arcSet d
  pget := arcGet
  premove := arcRemove
  pevict := arcEvict
  plen := arcLen

/-! ## Operation sequences over the facade -/

/-- One facade mutation (the operations quantified over by the capacity
claim). -/
inductive CacheOp (V : Type) where
  | set (key : String) (value : V)
  | setnx (key : String) (value : V) (ttl : Nat)
  | remove (key : String)

/-- Apply one operation. -/
def applyOp {σ V : Type} (P : PolicyImpl σ (Entry V)) (c : CacheState σ) :
    CacheOp V → CacheState σ
  | .set k v => cacheSet P c k v
  | .setnx k v ttl => cacheSetNX P c k v ttl
  | .remove k => cacheRemove P c k

/-- Run a finite sequence of operations. -/
def runOps {σ V : Type} (P : PolicyImpl σ (Entry V)) (c : CacheState σ)
    (ops : List (CacheOp V)) : CacheState σ :=
  ops.foldl (applyOp P) c

/-! ## Instantiated policies and concrete states used by the claims -/

/-- The no-eviction policy storing facade entries over `Nat` values. -/
def noopNatP : PolicyImpl (NoopState (Entry Nat)) (Entry Nat) := noopPolicy (Entry Nat)

/-- The LRU policy storing facade entries over `Nat` values. -/
def lruNatP : PolicyImpl (LRUCacheM (Entry Nat)) (Entry Nat) := lruPolicy (Entry Nat)

/-- The LFU policy storing facade entries over `Nat` values. -/
def lfuNatP : PolicyImpl (LFUCacheM (Entry Nat)) (Entry Nat) := lfuPolicy (Entry Nat)

/-- The ARC policy storing facade entries over `Nat` values; the placeholder
entry models the `nil` written into ghost lists. -/
def arcNatP : PolicyImpl (ARCCacheM (Entry Nat)) (Entry Nat) :=
  arcPolicy (Entry Nat) ⟨0, 0, 0⟩

/-- A lookup-only trace over the LFU policy. -/
def lfuGetTrace {α : Type} (s : LFUCacheM α) (ks : List String) : LFUCacheM α :=
  ks.foldl (fun t k => (lfuGet t k).2) s

/-- Invariant of an `ARCCacheM` as wired by the facade with capacity `cap`:
the inner LRUs carry the full capacity, residents fit in `cap`, and the
adaptive target never exceeds `cap`. -/
def arcInv {α : Type} (cap : Nat) (c : ARCCacheM α) : Prop :=
  c.capacity = cap ∧ c.t1.capacity = cap ∧ c.t2.capacity = cap ∧
  c.t1.items.length + c.t2.items.length ≤ cap ∧ c.prefer ≤ cap

/-- C1 counterexample state: capacity 1, NoEviction policy, two `Set`s. -/
def c1NoopRun : CacheState (NoopState (Entry Nat)) :=
  cacheSet noopNatP (cacheSet noopNatP (newCache (newNoop (Entry Nat)) 1 1) "a" 1) "b" 2

/-- C2 trace: LFU policy, capacity 1, granularity 1.
`SetNX("k1", ttl 0)` fills bucket 0; `SetNX("k2", ttl 5)` overflows, and the
eviction cascade sweeps bucket 0 (removing `k1`) before consulting
`removeCount`. -/
def c2Run : CacheState (LFUCacheM (Entry Nat)) :=
  cacheSetNX lfuNatP
    (cacheSetNX lfuNatP (newCache (newLFU (Entry Nat) 1) 1 1) "k1" 11 0) "k2" 22 5

/-- C3 input: `current_epoch = 1`, a due bucket at index 0 (a gap at 1), and
the key `b` live in the policy. -/
def c3Gap : CacheState (NoopState (Entry Nat)) :=
  { pol := [("b", ⟨1, 0, 0⟩)], capacity := 3, epoch := 1, granularity := 1
    ttlMap := [(0, ["b"])] }

/-- C4 trace: granularity 10, `SetNX("a", 7, ttl 5)` — the entry lands in
bucket `0 = current_epoch` with a finite epoch, i.e. it is already stale. -/
def c4Run : CacheState (NoopState (Entry Nat)) :=
  cacheSetNX noopNatP (newCache (newNoop (Entry Nat)) 10 10) "a" 7 5

/-- C6 trace: `SetNX("a", 5, ttl 10)` then `Remove("a")` (capacity 10,
granularity 1). -/
def c6Run : CacheState (LFUCacheM (Entry Nat)) :=
  cacheRemove lfuNatP
    (cacheSetNX lfuNatP (newCache (newLFU (Entry Nat) 10) 10 1) "a" 5 10) "a"

/-- C7 trace, first half: `SetNX("a", 1, ttl 1)` then `Set("a", 2)`
(capacity 10, granularity 1).  The key stays listed in bucket 1 while its
entry now carries the no-expiry epoch. -/
def c7Mid : CacheState (LFUCacheM (Entry Nat)) :=
  cacheSet lfuNatP
    (cacheSetNX lfuNatP (newCache (newLFU (Entry Nat) 10) 10 1) "a" 1 1) "a" 2

/-- C7 trace, second half: two sweeper ticks. -/
def c7End : CacheState (LFUCacheM (Entry Nat)) :=
  collectExpired lfuNatP (collectExpired lfuNatP c7Mid)

/-- C8 state: a fresh LFU cache holding one item attached to the `freq=0`
bucket. -/
def c8Lfu : LFUCacheM Nat := lfuSet (newLFU Nat 2) "a" 1

/-- C9 setup (capacity 2): `Set a; Set b; Set c` leaves `a` as a ghost on
`B1` with `T1 = [c, b]`. -/
def c9Pre : ARCCacheM Nat :=
  arcSet 0 (arcSet 0 (arcSet 0 (newARC Nat 2) "a" 1) "b" 2) "c" 3

/-- C9 ghost hit: re-setting `a` takes the `B1` branch. -/
def c9Post : ARCCacheM Nat := arcSet 0 c9Pre "a" 9

/-- C9 second trace (capacity 2): `a b c a d` drives the cache into the
state `T1 = [d, c]`, `T2 = []`, `B1 = [b]`, `B2 = [a]`, `prefer = 1`; on the
next ghost hit the adapted target equals `|T1|`, so the `replcae` direction
flag decides which side is demoted. -/
def c9Pre2 : ARCCacheM Nat := arcSet 0 c9Post "d" 4

/-- C9 second ghost hit: re-setting `b` hits `B1` with `|T1| = 2 = prefer`
after adaptation; `replcae(true)` demotes `c` from `T1` into `B1`, which the
claimed `replace(in_b2=false)` would not do (it would probe the empty `T2`). -/
def c9Post2 : ARCCacheM Nat := arcSet 0 c9Pre2 "b" 20

/-- C10 witness input: `current_epoch = 0`, buckets at index 0 and at
`2^64 - 1`. -/
def c10In : CacheState (NoopState (Entry Nat)) :=
  { pol := [("y", ⟨42, 0, 0⟩), ("x", ⟨7, 0, 0⟩)], capacity := 3, epoch := 0
    granularity := 1, ttlMap := [(0, ["x"]), (U64MAX, ["y"])] }

/-- C7 witness input: a due bucket at the current epoch listing `a`, whose
entry carries the no-expiry epoch `U64MAX`. -/
def c7In : CacheState (NoopState (Entry Nat)) :=
  { pol := [("a", ⟨5, U64MAX, 0⟩)], capacity := 3, epoch := 2
    granularity := 1, ttlMap := [(2, ["a"])] }

/-! ## Basic lemmas about the Go-map operations -/

/-- Deleting a key makes it absent. -/
theorem afind_aerase_self {α : Type} (k : String) (l : List (String × α)) :
    afind k (aerase k l) = none := by
  induction l with
  | nil => rfl
  | cons p rest ih =>
    obtain ⟨k2, v2⟩ := p
    by_cases h : k2 = k
    · simpa [aerase, h] using ih
    · simp [aerase, h, afind, ih]

/-- Deleting an absent key is the identity. -/
theorem aerase_eq_of_afind_none {α : Type} (k : String) (l : List (String × α))
    (h : afind k l = none) : aerase k l = l := by
  induction l with
  | nil => rfl
  | cons p rest ih =>
    obtain ⟨k2, v2⟩ := p
    by_cases hk : k2 = k
    · simp [afind, hk] at h
    · simp [afind, hk] at h
      simp [aerase, hk, ih h]

/-- Deletion never grows the map. -/
theorem aerase_length_le {α : Type} (k : String) (l : List (String × α)) :
    (aerase k l).length ≤ l.length := by
  induction l with
  | nil => exact Nat.le_refl _
  | cons p rest ih =>
    obtain ⟨k2, v2⟩ := p
    by_cases h : k2 = k
    · simp only [aerase, h, if_pos]
      exact Nat.le_succ_of_le ih
    · simpa [aerase, h] using ih

/-- Deleting a present key strictly shrinks the map. -/
theorem aerase_length_lt {α : Type} (k : String) (l : List (String × α))
    (h : (afind k l).isSome = true) : (aerase k l).length < l.length := by
  induction l with
  | nil => simp [afind] at h
  | cons p rest ih =>
    obtain ⟨k2, v2⟩ := p
    by_cases hk : k2 = k
    · simp only [aerase, hk, if_pos]
      exact Nat.lt_succ_of_le (aerase_length_le k rest)
    · simp only [afind, hk, if_neg, ite_false] at h
      simpa [aerase, hk] using Nat.succ_lt_succ (ih h)

/-- An absent key stays absent across any deletion. -/
theorem afind_aerase_none {α : Type} (k j : String) (l : List (String × α))
    (h : afind k l = none) : afind k (aerase j l) = none := by
  induction l with
  | nil => rfl
  | cons p rest ih =>
    obtain ⟨k2, v2⟩ := p
    by_cases hk : k2 = k
    · simp [afind, hk] at h
    · simp only [afind, hk, if_neg, ite_false] at h
      by_cases hj : k2 = j
      · simp [aerase, hj, ih h]
      · simp [aerase, hj, afind, hk, ih h]

/-- TTL-map lookup after deletion. -/
theorem tfind_terase (i j : Nat) (m : List (Nat × List String)) :
    tfind j (terase i m) = if j = i then none else tfind j m := by
  induction m with
  | nil => simp [terase, tfind]
  | cons p rest ih =>
    obtain ⟨i2, b⟩ := p
    by_cases hi : i2 = i
    · have hdrop : terase i ((i2, b) :: rest) = terase i rest := by
        simp [terase, hi]
      rw [hdrop, ih]
      by_cases hj : j = i
      · simp [hj]
      · have h2 : ¬ i2 = j := fun h => hj (h.symm.trans hi)
        simp [hj, tfind, h2]
    · have hkeep : terase i ((i2, b) :: rest) = (i2, b) :: terase i rest := by
        simp [terase, hi]
      rw [hkeep]
      by_cases hj : i2 = j
      · have h2 : ¬ j = i := fun h => hi (hj.trans h)
        simp [tfind, hj, h2]
      · simp [tfind, hj, ih]

/-! ## Generic lemmas about the sweep loop -/

/-- `removeCount` is threaded through the loop unchanged. -/
theorem sweepLoop_fst {σ α : Type} (P : PolicyImpl σ α) :
    ∀ (fuel cnt counter : Nat) (pol : σ) (m : List (Nat × List String)),
      (sweepLoop P fuel cnt counter pol m).1 = cnt := by
  intro fuel
  induction fuel with
  | zero => intro cnt counter pol m; rfl
  | succ fuel ih =>
    intro cnt counter pol m
    simp only [sweepLoop]
    cases h : tfind counter m with
    | none => rfl
    | some bucket => exact ih _ _ _ _

/-- A pointwise-preserved predicate on the policy survives the inner
removal fold. -/
theorem foldl_premove_pred {σ α : Type} (P : PolicyImpl σ α) (Q : σ → Prop)
    (hQ : ∀ s k, Q s → Q (P.premove s k)) :
    ∀ (ks : List String) (pol : σ), Q pol →
      Q (ks.foldl (fun p k => P.premove p k) pol) := by
  intro ks
  induction ks with
  | nil => intro pol h; exact h
  | cons k rest ih => intro pol h; exact ih _ (hQ _ _ h)

/-- A pointwise-preserved predicate on the policy survives the whole sweep
loop. -/
theorem sweepLoop_pol_pred {σ α : Type} (P : PolicyImpl σ α) (Q : σ → Prop)
    (hQ : ∀ s k, Q s → Q (P.premove s k)) :
    ∀ (fuel cnt counter : Nat) (pol : σ) (m : List (Nat × List String)), Q pol →
      Q (sweepLoop P fuel cnt counter pol m).2.1 := by
  intro fuel
  induction fuel with
  | zero => intro cnt counter pol m h; exact h
  | succ fuel ih =>
    intro cnt counter pol m h
    simp only [sweepLoop]
    cases hb : tfind counter m with
    | none => exact h
    | some bucket => exact ih _ _ _ _ (foldl_premove_pred P Q hQ bucket pol h)

/-- A bucket index absent from the TTL map stays absent across the loop. -/
theorem sweepLoop_tfind_none {σ α : Type} (P : PolicyImpl σ α) :
    ∀ (fuel cnt counter : Nat) (pol : σ) (m : List (Nat × List String)) (i : Nat),
      tfind i m = none → tfind i (sweepLoop P fuel cnt counter pol m).2.2 = none := by
  intro fuel
  induction fuel with
  | zero => intro cnt counter pol m i h; exact h
  | succ fuel ih =>
    intro cnt counter pol m i h
    simp only [sweepLoop]
    cases hb : tfind counter m with
    | none => exact h
    | some bucket =>
      refine ih _ _ _ _ _ ?_
      rw [tfind_terase]
      by_cases hc : i = counter
      · simp [hc]
      · simp [hc, h]

/-! ## Length and capacity lemmas for the LRU policy -/

/-- `Set` does not change the capacity field. -/
theorem lruSet_capacity {α : Type} (s : LRUCacheM α) (k : String) (v : α) :
    (lruSet s k v).capacity = s.capacity := by
  simp only [lruSet]
  cases h : afind k s.items with
  | some v2 => rfl
  | none =>
    by_cases hc : s.capacity ≤ s.items.length
    · simp [hc, lruEvict]
    · simp [hc]

/-- `Get` does not change the capacity field. -/
theorem lruGet_capacity {α : Type} (s : LRUCacheM α) (k : String) :
    (lruGet s k).2.capacity = s.capacity := by
  simp only [lruGet]
  cases h : afind k s.items with
  | some v2 => rfl
  | none => rfl

/-- `Get` returns exactly the map lookup. -/
theorem lruGet_fst {α : Type} (s : LRUCacheM α) (k : String) :
    (lruGet s k).1 = afind k s.items := by
  simp only [lruGet]
  cases h : afind k s.items with
  | some v2 => rfl
  | none => rfl

/-- A missed `Get` leaves the state unchanged. -/
theorem lruGet_none {α : Type} (s : LRUCacheM α) (k : String)
    (h : afind k s.items = none) : lruGet s k = (none, s) := by
  simp [lruGet, h]

/-- `Get` never grows the list. -/
theorem lruGet_length_le {α : Type} (s : LRUCacheM α) (k : String) :
    (lruGet s k).2.items.length ≤ s.items.length := by
  simp only [lruGet]
  cases h : afind k s.items with
  | some v2 =>
    simpa using Nat.succ_le_of_lt (aerase_length_lt k s.items (by simp [h]))
  | none => exact Nat.le_refl _

/-- `Evict` removes exactly `n` tail nodes (saturating). -/
theorem lruEvict_length {α : Type} (s : LRUCacheM α) (n : Nat) :
    (lruEvict s n).items.length = s.items.length - n := by
  simp [lruEvict, List.length_take]

/-- `Remove` never grows the list. -/
theorem lruRemove_length_le {α : Type} (s : LRUCacheM α) (k : String) :
    (lruRemove s k).items.length ≤ s.items.length := by
  simpa [lruRemove] using aerase_length_le k s.items

/-- `Set` grows the list by at most one. -/
theorem lruSet_length_le_succ {α : Type} (s : LRUCacheM α) (k : String) (v : α) :
    (lruSet s k v).items.length ≤ s.items.length + 1 := by
  simp only [lruSet]
  cases h : afind k s.items with
  | some v2 =>
    simpa using Nat.succ_le_succ (aerase_length_le k s.items)
  | none =>
    by_cases hc : s.capacity ≤ s.items.length
    · simp only [hc, if_pos]
      simp only [List.length_cons, lruEvict_length]
      omega
    · simp [hc]

/-- A `Set` that hits never grows the list. -/
theorem lruSet_length_hit {α : Type} (s : LRUCacheM α) (k : String) (v : α)
    (h : (afind k s.items).isSome = true) :
    (lruSet s k v).items.length ≤ s.items.length := by
  obtain ⟨v2, hv⟩ := Option.isSome_iff_exists.mp h
  simp only [lruSet, hv]
  simpa using Nat.succ_le_of_lt (aerase_length_lt k s.items h)

/-- A `Set` that misses while at (or above) capacity evicts one node first,
so the length is unchanged. -/
theorem lruSet_length_full {α : Type} (s : LRUCacheM α) (k : String) (v : α)
    (hnone : afind k s.items = none) (hfull : s.capacity ≤ s.items.length)
    (hcap : 1 ≤ s.capacity) :
    (lruSet s k v).items.length = s.items.length := by
  simp only [lruSet, hnone, hfull, if_pos]
  simp only [List.length_cons, lruEvict_length]
  omega

/-- `Set` keeps a within-capacity list within capacity. -/
theorem lruSet_length_bounded {α : Type} (s : LRUCacheM α) (k : String) (v : α)
    (hle : s.items.length ≤ s.capacity) (hcap : 1 ≤ s.capacity) :
    (lruSet s k v).items.length ≤ s.capacity := by
  cases h : afind k s.items with
  | some v2 =>
    exact Nat.le_trans (lruSet_length_hit s k v (by simp [h])) hle
  | none =>
    by_cases hc : s.capacity ≤ s.items.length
    · rw [lruSet_length_full s k v h hc hcap]
      exact hle
    · simp only [lruSet, h, hc, if_neg, ite_false, List.length_cons]
      omega

/-- `removeOldest` either reports an empty list or pops exactly one node. -/
theorem removeOldest_cases {α : Type} (s : LRUCacheM α) :
    ((removeOldest s).1 = none ∧ (removeOldest s).2 = s ∧ s.items = []) ∨
    ((removeOldest s).1.isSome = true ∧
      (removeOldest s).2.items.length + 1 = s.items.length) := by
  by_cases h : s.items = []
  · left
    simp [removeOldest, h]
  · right
    have hsome : (s.items.getLast?).isSome = true := by
      cases hl : s.items.getLast? with
      | some p => rfl
      | none => exact absurd (List.getLast?_eq_none_iff.mp hl) h
    obtain ⟨p, hp⟩ := Option.isSome_iff_exists.mp hsome
    have hpos : 0 < s.items.length := List.length_pos.mpr h
    simp only [removeOldest, hp, List.length_dropLast]
    constructor
    · rfl
    · omega

/-- `removeOldest` does not change the capacity field. -/
theorem removeOldest_capacity {α : Type} (s : LRUCacheM α) :
    (removeOldest s).2.capacity = s.capacity := by
  simp only [removeOldest]
  cases hp : s.items.getLast? with
  | some p => rfl
  | none => rfl

/-- `removeOldest` never grows the list. -/
theorem removeOldest_length_le {α : Type} (s : LRUCacheM α) :
    (removeOldest s).2.items.length ≤ s.items.length := by
  rcases removeOldest_cases s with ⟨_, h2, _⟩ | ⟨_, h2⟩
  · rw [h2]
  · omega

/-! ## Length lemmas for the LFU policy -/

/-- In-place value update preserves the total item count. -/
theorem blen_bupdate {α : Type} (k : String) (v : α)
    (bs : List (Nat × List (String × α))) : blen (bupdate k v bs) = blen bs := by
  induction bs with
  | nil => rfl
  | cons b rest ih =>
    simp only [bupdate, List.map_cons] at ih ⊢
    simp [blen, List.map_cons] at ih ⊢
    exact ih

/-- Attaching a fresh item grows the count by at most one. -/
theorem blen_battach {α : Type} (k : String) (v : α)
    (bs : List (Nat × List (String × α))) : blen (battach k v bs) ≤ blen bs + 1 := by
  cases bs with
  | nil => simp [battach, blen]
  | cons b rest =>
    obtain ⟨f, its⟩ := b
    simp only [battach, blen, List.map_cons, List.sum_cons, List.length_append,
      List.length_cons, List.length_nil]
    omega

/-- Removal never grows the count. -/
theorem blen_bremove_le {α : Type} (k : String)
    (bs : List (Nat × List (String × α))) : blen (bremove k bs) ≤ blen bs := by
  induction bs with
  | nil => exact Nat.le_refl _
  | cons b rest ih =>
    obtain ⟨f, its⟩ := b
    simp only [bremove]
    cases h : afind k its with
    | some v =>
      simp only [blen, List.map_cons, List.sum_cons]
      exact Nat.add_le_add (aerase_length_le k its) (Nat.le_refl _)
    | none =>
      simp only [blen, List.map_cons, List.sum_cons]
      exact Nat.add_le_add (Nat.le_refl _) ih

/-- `Evict` removes exactly `min count total` items. -/
theorem blen_bevict {α : Type} :
    ∀ (n : Nat) (bs : List (Nat × List (String × α))),
      blen (bevict n bs) = blen bs - min n (blen bs) := by
  intro n bs
  induction bs generalizing n with
  | nil => simp [bevict, blen]
  | cons b rest ih =>
    obtain ⟨f, its⟩ := b
    by_cases h0 : n = 0
    · simp [bevict, h0]
    · simp only [bevict, h0, if_neg, ite_false]
      by_cases hL : its.length ≤ n
      · simp only [hL, if_pos]
        have := ih (n - its.length)
        simp only [blen, List.map_cons, List.sum_cons, List.length_nil] at this ⊢
        omega
      · simp only [hL, if_neg, ite_false]
        simp only [blen, List.map_cons, List.sum_cons, List.length_drop]
        omega

/-! ## Shape lemmas for `ARCCache.replcae` -/

/-- `replcae` never touches the capacities or the target. -/
theorem arcReplcae_fields {α : Type} (d : α) (c : ARCCacheM α) (dir : Bool) :
    (arcReplcae d c dir).capacity = c.capacity ∧
    (arcReplcae d c dir).prefer = c.prefer ∧
    (arcReplcae d c dir).t1.capacity = c.t1.capacity ∧
    (arcReplcae d c dir).t2.capacity = c.t2.capacity := by
  simp only [arcReplcae]
  split
  · cases hr : (removeOldest c.t1).1 <;>
      simp [hr, removeOldest_capacity]
  · cases hr : (removeOldest c.t2).1 <;>
      simp [hr, removeOldest_capacity]

/-- `replcae` never grows the resident lists. -/
theorem arcReplcae_sum_le {α : Type} (d : α) (c : ARCCacheM α) (dir : Bool) :
    lruLen (arcReplcae d c dir).t1 + lruLen (arcReplcae d c dir).t2 ≤
      lruLen c.t1 + lruLen c.t2 := by
  have h1 := removeOldest_length_le c.t1
  have h2 := removeOldest_length_le c.t2
  simp only [arcReplcae]
  split
  · cases hr : (removeOldest c.t1).1 <;>
      (simp only [hr, lruLen] at h1 h2 ⊢; omega)
  · cases hr : (removeOldest c.t2).1 <;>
      (simp only [hr, lruLen] at h1 h2 ⊢; omega)

/-- With `direction = true` (the `B1` ghost-hit call) and a full resident
set, `replcae` always demotes exactly one resident. -/
theorem arcReplcae_pop_true {α : Type} (d : α) (c : ARCCacheM α)
    (hcap : 1 ≤ c.capacity) (hp : c.prefer ≤ c.capacity)
    (hfull : c.capacity ≤ lruLen c.t1 + lruLen c.t2) :
    lruLen (arcReplcae d c true).t1 + lruLen (arcReplcae d c true).t2 + 1 =
      lruLen c.t1 + lruLen c.t2 := by
  simp only [arcReplcae]
  split
  case isTrue h =>
    rcases removeOldest_cases c.t1 with ⟨_, _, hnil⟩ | ⟨hs, hlen⟩
    · simp [lruLen, hnil] at h
    · obtain ⟨k, hk⟩ := Option.isSome_iff_exists.mp hs
      simp only [hk, lruLen]
      omega
  case isFalse h =>
    have ht2 : 0 < lruLen c.t2 := by
      by_contra h0
      push_neg at h0
      have ht2z : lruLen c.t2 = 0 := Nat.le_zero.mp h0
      rw [ht2z, Nat.add_zero] at hfull
      apply h
      refine ⟨by omega, ?_⟩
      by_cases hpe : lruLen c.t1 = c.prefer
      · exact Or.inr ⟨hpe, trivial⟩
      · exact Or.inl (by omega)
    rcases removeOldest_cases c.t2 with ⟨_, _, hnil⟩ | ⟨hs, hlen⟩
    · simp [lruLen, hnil] at ht2
    · obtain ⟨k, hk⟩ := Option.isSome_iff_exists.mp hs
      simp only [hk, lruLen]
      omega

/-- With `direction = false` (the miss-path call) and a full resident set,
`replcae` either demotes one resident, or does nothing because `T2` is
empty while `T1` fills the whole capacity. -/
theorem arcReplcae_pop_false {α : Type} (d : α) (c : ARCCacheM α)
    (hfull : c.capacity ≤ lruLen c.t1 + lruLen c.t2) :
    (lruLen (arcReplcae d c false).t1 + lruLen (arcReplcae d c false).t2 + 1 =
      lruLen c.t1 + lruLen c.t2) ∨
    (arcReplcae d c false = c ∧ c.capacity ≤ lruLen c.t1 ∧ lruLen c.t2 = 0) := by
  simp only [arcReplcae]
  split
  case isTrue h =>
    rcases removeOldest_cases c.t1 with ⟨_, _, hnil⟩ | ⟨hs, hlen⟩
    · simp [lruLen, hnil] at h
    · obtain ⟨k, hk⟩ := Option.isSome_iff_exists.mp hs
      left
      simp only [hk, lruLen]
      omega
  case isFalse h =>
    rcases Nat.eq_zero_or_pos (lruLen c.t2) with ht2z | ht2
    · right
      have hempty : c.t2.items = [] := List.length_eq_zero.mp ht2z
      have hr1 : (removeOldest c.t2).1 = none := by
        simp [removeOldest, hempty]
      have hr2 : (removeOldest c.t2).2 = c.t2 := by
        simp [removeOldest, hempty]
      have hcap2 : c.capacity ≤ lruLen c.t1 := by
        simp only [lruLen] at hfull ht2z ⊢
        omega
      refine ⟨?_, hcap2, ht2z⟩
      simp only [hr1, hr2]
    · rcases removeOldest_cases c.t2 with ⟨_, _, hnil⟩ | ⟨hs, hlen⟩
      · simp [lruLen, hnil] at ht2
      · obtain ⟨k, hk⟩ := Option.isSome_iff_exists.mp hs
        left
        simp only [hk, lruLen]
        omega

/-- Deleting twice is deleting once. -/
theorem aerase_aerase {α : Type} (k : String) (l : List (String × α)) :
    aerase k (aerase k l) = aerase k l :=
  aerase_eq_of_afind_none k (aerase k l) (afind_aerase_self k l)

/-- Lookup at the front of a freshly moved node. -/
theorem afind_cons_self {α : Type} (k : String) (v : α) (l : List (String × α)) :
    afind k ((k, v) :: l) = some v := by
  simp [afind]

/-- `contains` on a present key: the hit is reported and the node moves to
the front. -/
theorem lruContains_of_afind_some {α : Type} (s : LRUCacheM α) (k : String) (v : α)
    (h : afind k s.items = some v) :
    lruContains s k = (true, { s with items := (k, v) :: aerase k s.items }) := by
  simp [lruContains, lruGet, h]

/-- `contains` on an absent key: no hit, no mutation. -/
theorem lruContains_of_afind_none {α : Type} (s : LRUCacheM α) (k : String)
    (h : afind k s.items = none) : lruContains s k = (false, s) := by
  simp [lruContains, lruGet, h]

/-- `Remove` does not change the capacity field. -/
theorem lruRemove_capacity {α : Type} (s : LRUCacheM α) (k : String) :
    (lruRemove s k).capacity = s.capacity := rfl

/-- `Evict` does not change the capacity field. -/
theorem lruEvict_capacity {α : Type} (s : LRUCacheM α) (n : Nat) :
    (lruEvict s n).capacity = s.capacity := rfl


/-- Reducing a boolean guard that is literally `true`. -/
theorem ite_true_eq {β : Type} (a b : β) : (if (true = true) then a else b) = a := rfl

/-- Reducing a boolean guard that is literally `false`. -/
theorem ite_false_eq {β : Type} (a b : β) : (if (false = true) then a else b) = b := rfl

/-- Tail of the `B1` ghost-hit branch of `ARCCache.Set` (after the target
adaptation): optional `replcae(true)`, drop from `b2`, insert into `t2`.
It preserves the ARC invariant from any state satisfying it. -/
theorem arc_ghost_tail_inv {α : Type} (d : α) (cap : Nat) (hcap : 1 ≤ cap)
    (k : String) (v : α) (cb : ARCCacheM α) (hinv : arcInv cap cb) :
    arcInv cap
      (let c2 := if cb.capacity ≤ lruLen cb.t1 + lruLen cb.t2 then arcReplcae d cb true else cb
       let c3 := { c2 with b2 := lruRemove c2.b2 k }
       { c3 with t2 := lruSet c3.t2 k v }) := by
  obtain ⟨hC, hT1C, hT2C, hSum, hP⟩ := hinv
  by_cases hfull : cb.capacity ≤ lruLen cb.t1 + lruLen cb.t2
  · simp only [hfull, if_pos]
    have hrep := arcReplcae_pop_true d cb (by omega) (by omega) hfull
    obtain ⟨hf1, hf2, hf3, hf4⟩ := arcReplcae_fields d cb true
    have hset1 := lruSet_length_le_succ (arcReplcae d cb true).t2 k v
    have hsetc := lruSet_capacity (arcReplcae d cb true).t2 k v
    refine ⟨?_, ?_, ?_, ?_, ?_⟩
    · show (arcReplcae d cb true).capacity = cap
      rw [hf1]; exact hC
    · show (arcReplcae d cb true).t1.capacity = cap
      rw [hf3]; exact hT1C
    · show (lruSet (arcReplcae d cb true).t2 k v).capacity = cap
      rw [hsetc, hf4]; exact hT2C
    · show (arcReplcae d cb true).t1.items.length +
        (lruSet (arcReplcae d cb true).t2 k v).items.length ≤ cap
      simp only [lruLen] at hrep hfull
      omega
    · show (arcReplcae d cb true).prefer ≤ cap
      rw [hf2]; exact hP
  · simp only [hfull, if_neg, ite_false]
    have hset1 := lruSet_length_le_succ cb.t2 k v
    have hsetc := lruSet_capacity cb.t2 k v
    refine ⟨hC, hT1C, ?_, ?_, hP⟩
    · show (lruSet cb.t2 k v).capacity = cap
      rw [hsetc]; exact hT2C
    · show cb.t1.items.length + (lruSet cb.t2 k v).items.length ≤ cap
      simp only [lruLen] at hfull
      omega

/-- The ARC invariant only reads `capacity`, `t1`, `t2` and `prefer`, so it
transfers across states that agree on those projections (the ghost lists
may differ). -/
theorem arcInv_transfer {α : Type} (cap : Nat) (x y : ARCCacheM α)
    (hc : x.capacity = y.capacity) (h1 : x.t1 = y.t1) (h2 : x.t2 = y.t2)
    (hp : x.prefer = y.prefer) (h : arcInv cap y) : arcInv cap x := by
  obtain ⟨hC, hT1C, hT2C, hSum, hP⟩ := h
  exact ⟨hc.trans hC, h1 ▸ hT1C, h2 ▸ hT2C, h1 ▸ h2 ▸ hSum, hp ▸ hP⟩

/-- Tail of the complete-miss branch of `ARCCache.Set`: optional
`replcae(false)`, ghost-list trims, insert into `t1`.  It preserves the ARC
invariant provided the key is absent from `t1`. -/
theorem arc_miss_tail_inv {α : Type} (d : α) (cap : Nat) (hcap : 1 ≤ cap)
    (k : String) (v : α) (cb : ARCCacheM α) (hinv : arcInv cap cb)
    (hk1 : afind k cb.t1.items = none) :
    arcInv cap
      (let c2 := if cb.capacity ≤ lruLen cb.t1 + lruLen cb.t2 then arcReplcae d cb false else cb
       let c3 := if c2.capacity - c2.prefer < lruLen c2.b1 then
         { c2 with b1 := (removeOldest c2.b1).2 } else c2
       let c4 := if c3.prefer < lruLen c3.b2 then
         { c3 with b2 := (removeOldest c3.b2).2 } else c3
       { c4 with t1 := lruSet c4.t1 k v }) := by
  obtain ⟨hC, hT1C, hT2C, hSum, hP⟩ := hinv
  by_cases hfull : cb.capacity ≤ lruLen cb.t1 + lruLen cb.t2
  · simp only [hfull, if_pos]
    refine arcInv_transfer cap _
      { arcReplcae d cb false with t1 := lruSet (arcReplcae d cb false).t1 k v }
      ?_ ?_ ?_ ?_ ?_
    · show _ = (arcReplcae d cb false).capacity
      split <;> split <;> rfl
    · show lruSet _ k v = lruSet (arcReplcae d cb false).t1 k v
      have he : ∀ z : LRUCacheM α, z = (arcReplcae d cb false).t1 → lruSet z k v =
          lruSet (arcReplcae d cb false).t1 k v := by
        intro z hz
        rw [hz]
      apply he
      split <;> split <;> rfl
    · show _ = (arcReplcae d cb false).t2
      split <;> split <;> rfl
    · show _ = (arcReplcae d cb false).prefer
      split <;> split <;> rfl
    · obtain ⟨hf1, hf2, hf3, hf4⟩ := arcReplcae_fields d cb false
      rcases arcReplcae_pop_false d cb hfull with hpop | ⟨heq, ht1f, ht2z⟩
      · have hset1 := lruSet_length_le_succ (arcReplcae d cb false).t1 k v
        have hsetc := lruSet_capacity (arcReplcae d cb false).t1 k v
        refine ⟨hf1.trans hC, ?_, hf4.trans hT2C, ?_, by rw [hf2]; exact hP⟩
        · show (lruSet (arcReplcae d cb false).t1 k v).capacity = cap
          rw [hsetc, hf3]; exact hT1C
        · show (lruSet (arcReplcae d cb false).t1 k v).items.length +
            (arcReplcae d cb false).t2.items.length ≤ cap
          simp only [lruLen] at hpop hfull
          omega
      · rw [heq]
        have hfull1 : cb.t1.capacity ≤ cb.t1.items.length := by
          simp only [lruLen] at ht1f
          omega
        have hlen := lruSet_length_full cb.t1 k v hk1 hfull1 (by omega)
        have hsetc := lruSet_capacity cb.t1 k v
        refine ⟨hC, ?_, hT2C, ?_, hP⟩
        · show (lruSet cb.t1 k v).capacity = cap
          rw [hsetc]; exact hT1C
        · show (lruSet cb.t1 k v).items.length + cb.t2.items.length ≤ cap
          omega
  · simp only [hfull, if_neg, ite_false]
    refine arcInv_transfer cap _ { cb with t1 := lruSet cb.t1 k v } ?_ ?_ ?_ ?_ ?_
    · show _ = cb.capacity
      split <;> split <;> rfl
    · show lruSet _ k v = lruSet cb.t1 k v
      have he : ∀ z : LRUCacheM α, z = cb.t1 → lruSet z k v = lruSet cb.t1 k v := by
        intro z hz
        rw [hz]
      apply he
      split <;> split <;> rfl
    · show _ = cb.t2
      split <;> split <;> rfl
    · show _ = cb.prefer
      split <;> split <;> rfl
    · have hset1 := lruSet_length_le_succ cb.t1 k v
      have hsetc := lruSet_capacity cb.t1 k v
      refine ⟨hC, ?_, hT2C, ?_, hP⟩
      · show (lruSet cb.t1 k v).capacity = cap
        rw [hsetc]; exact hT1C
      · show (lruSet cb.t1 k v).items.length + cb.t2.items.length ≤ cap
        simp only [lruLen] at hfull
        omega

/-- `ARCCache.Set` preserves the ARC shape invariant. -/
theorem arcSet_inv {α : Type} (d : α) (cap : Nat) (hcap : 1 ≤ cap)
    (c : ARCCacheM α) (k : String) (v : α) (h : arcInv cap c) :
    arcInv cap (arcSet d c k v) := by
  obtain ⟨hC, hT1C, hT2C, hSum, hP⟩ := h
  cases h1 : afind k c.t1.items with
  | some v1 =>
    simp only [arcSet, lruContains_of_afind_some c.t1 k v1 h1, ite_true_eq]
    have e1 : aerase k ((k, v1) :: aerase k c.t1.items) = aerase k c.t1.items := by
      simp [aerase, aerase_aerase]
    have l1 : (aerase k c.t1.items).length < c.t1.items.length :=
      aerase_length_lt k c.t1.items (by simp [h1])
    have l2 := lruSet_length_le_succ c.t2 k v
    refine ⟨hC, hT1C, ?_, ?_, hP⟩
    · show (lruSet c.t2 k v).capacity = cap
      rw [lruSet_capacity]; exact hT2C
    · show (aerase k ((k, v1) :: aerase k c.t1.items)).length +
        (lruSet c.t2 k v).items.length ≤ cap
      rw [e1]; omega
  | none =>
    simp only [arcSet, lruContains_of_afind_none c.t1 k h1, ite_false_eq]
    cases h2 : afind k c.t2.items with
    | some v2 =>
      simp only [lruContains_of_afind_some c.t2 k v2 h2, ite_true_eq]
      have l2a : (aerase k c.t2.items).length < c.t2.items.length :=
        aerase_length_lt k c.t2.items (by simp [h2])
      have l2b := lruSet_length_hit
        (⟨(k, v2) :: aerase k c.t2.items, c.t2.capacity⟩ : LRUCacheM α)
        k v (by simp [afind_cons_self])
      simp only [List.length_cons] at l2b
      refine ⟨hC, hT1C, ?_, ?_, hP⟩
      · show (lruSet (⟨(k, v2) :: aerase k c.t2.items, c.t2.capacity⟩ : LRUCacheM α)
          k v).capacity = cap
        rw [lruSet_capacity]; exact hT2C
      · show c.t1.items.length +
          (lruSet (⟨(k, v2) :: aerase k c.t2.items, c.t2.capacity⟩ : LRUCacheM α)
            k v).items.length ≤ cap
        omega
    | none =>
      simp only [lruContains_of_afind_none c.t2 k h2, ite_false_eq]
      cases h3 : afind k c.b1.items with
      | some vb =>
        simp only [lruContains_of_afind_some c.b1 k vb h3, ite_true_eq]
        have hCBinv : ∀ D2 : Nat, arcInv cap
            { c with b1 := { c.b1 with items := (k, vb) :: aerase k c.b1.items }
                     prefer := if c.capacity ≤ c.prefer + D2 then c.capacity
                       else c.prefer + D2 } := by
          intro D2
          refine ⟨hC, hT1C, hT2C, hSum, ?_⟩
          show (if c.capacity ≤ c.prefer + D2 then c.capacity else c.prefer + D2) ≤ cap
          split <;> omega
        exact arc_ghost_tail_inv d cap hcap k v _ (hCBinv _)
      | none =>
        simp only [lruContains_of_afind_none c.b1 k h3, ite_false_eq]
        exact arc_miss_tail_inv d cap hcap k v c ⟨hC, hT1C, hT2C, hSum, hP⟩ h1

/-- `ARCCache.Get` preserves the invariant and never grows the residents. -/
theorem arcGet_inv {α : Type} (cap : Nat) (c : ARCCacheM α) (k : String)
    (h : arcInv cap c) :
    arcInv cap (arcGet c k).2 ∧ arcLen (arcGet c k).2 ≤ arcLen c := by
  obtain ⟨hC, hT1C, hT2C, hSum, hP⟩ := h
  have l1 := lruGet_length_le c.t1 k
  have l2 := lruGet_length_le c.t2 k
  have c1 := lruGet_capacity c.t1 k
  have c2 := lruGet_capacity c.t2 k
  simp only [arcGet]
  split
  · refine ⟨⟨hC, c1.trans hT1C, hT2C, ?_, hP⟩, ?_⟩
    · show (lruGet c.t1 k).2.items.length + c.t2.items.length ≤ cap
      omega
    · simp only [arcLen, lruLen]
      omega
  · refine ⟨⟨hC, c1.trans hT1C, c2.trans hT2C, ?_, hP⟩, ?_⟩
    · show (lruGet c.t1 k).2.items.length + (lruGet c.t2 k).2.items.length ≤ cap
      omega
    · simp only [arcLen, lruLen]
      omega

/-- `ARCCache.Remove` preserves the invariant and never grows the
residents. -/
theorem arcRemove_inv {α : Type} (cap : Nat) (c : ARCCacheM α) (k : String)
    (h : arcInv cap c) :
    arcInv cap (arcRemove c k) ∧ arcLen (arcRemove c k) ≤ arcLen c := by
  obtain ⟨hC, hT1C, hT2C, hSum, hP⟩ := h
  have l1 := aerase_length_le k c.t1.items
  have l2 := aerase_length_le k c.t2.items
  refine ⟨⟨hC, hT1C, hT2C, ?_, hP⟩, ?_⟩
  · show (aerase k c.t1.items).length + (aerase k c.t2.items).length ≤ cap
    omega
  · simp only [arcRemove, arcLen, lruLen, lruRemove]
    omega

/-- `ARCCache.Evict` preserves the invariant, and with `count = 1` it
removes at least one resident when any exists. -/
theorem arcEvict_inv {α : Type} (cap : Nat) (c : ARCCacheM α) (n : Nat)
    (h : arcInv cap c) :
    arcInv cap (arcEvict c n) ∧ arcLen (arcEvict c n) ≤ arcLen c := by
  obtain ⟨hC, hT1C, hT2C, hSum, hP⟩ := h
  have l1 := lruEvict_length c.t1 n
  have l2 := lruEvict_length c.t2 n
  refine ⟨⟨hC, hT1C, hT2C, ?_, hP⟩, ?_⟩
  · show (lruEvict c.t1 n).items.length + (lruEvict c.t2 n).items.length ≤ cap
    omega
  · simp only [arcEvict, arcLen, lruLen]
    omega

/-- `ARCCache.Evict 1` shrinks a nonempty resident set. -/
theorem arcEvict_one {α : Type} (c : ARCCacheM α) :
    arcLen (arcEvict c 1) ≤ arcLen c - 1 := by
  have l1 := lruEvict_length c.t1 1
  have l2 := lruEvict_length c.t2 1
  simp only [arcEvict, arcLen, lruLen] at l1 l2 ⊢
  omega

/-- `LFUCache.Set` grows the item count by at most one. -/
theorem lfuSet_length_le_succ {α : Type} (s : LFUCacheM α) (k : String) (v : α) :
    lfuLen (lfuSet s k v) ≤ lfuLen s + 1 := by
  simp only [lfuSet]
  cases h : bfind k s.buckets with
  | some v2 =>
    simp only [lfuLen, blen_bupdate]
    omega
  | none =>
    simpa [lfuLen] using blen_battach k v s.buckets

/-- `LFUCache.Evict 1` shrinks a nonempty item set. -/
theorem lfuEvict_one {α : Type} (s : LFUCacheM α) :
    lfuLen (lfuEvict s 1) ≤ lfuLen s - 1 := by
  have := blen_bevict (α := α) 1 s.buckets
  simp only [lfuEvict, lfuLen] at this ⊢
  omega

/-! ## The facade eviction cascade: generic invariant preservation -/

/-- `removeExpired` always reports zero removals: the loop never increments
`removeCount`. -/
theorem removeExpired_fst {σ α : Type} (P : PolicyImpl σ α) (c : CacheState σ) :
    (removeExpired P c).1 = 0 := by
  simp only [removeExpired]
  exact sweepLoop_fst P (U64 + 1) 0 c.epoch c.pol c.ttlMap

/-- `removeExpired` keeps the capacity field. -/
theorem removeExpired_capacity {σ α : Type} (P : PolicyImpl σ α) (c : CacheState σ) :
    (removeExpired P c).2.capacity = c.capacity := rfl

/-- `emplaceToTTLBucket` only touches the TTL map. -/
theorem emplace_pol {σ : Type} (c : CacheState σ) (k : String) (e : Nat) :
    (emplaceToTTLBucket c k e).2.pol = c.pol := by
  simp only [emplaceToTTLBucket]
  split <;> rfl

/-- `emplaceToTTLBucket` keeps the capacity field. -/
theorem emplace_capacity {σ : Type} (c : CacheState σ) (k : String) (e : Nat) :
    (emplaceToTTLBucket c k e).2.capacity = c.capacity := by
  simp only [emplaceToTTLBucket]
  split <;> rfl

/-- A policy predicate plus a size bound survive the sweep. -/
theorem removeExpired_pol_inv {σ α : Type} (P : PolicyImpl σ α) (Q : σ → Prop)
    (hQrem : ∀ s k, Q s → Q (P.premove s k))
    (hlenrem : ∀ s k, P.plen (P.premove s k) ≤ P.plen s)
    (c : CacheState σ) (N : Nat) (hQ : Q c.pol) (hlen : P.plen c.pol ≤ N) :
    Q (removeExpired P c).2.pol ∧ P.plen (removeExpired P c).2.pol ≤ N :=
  sweepLoop_pol_pred P (fun s => Q s ∧ P.plen s ≤ N)
    (fun s k hs => ⟨hQrem s k hs.1, Nat.le_trans (hlenrem s k) hs.2⟩)
    (U64 + 1) 0 c.epoch c.pol c.ttlMap ⟨hQ, hlen⟩

/-- The overflow guard `if Len() > capacity { evict(1) }` shared by `Set`
and `SetNX`: starting from at most one entry over capacity, it lands at or
below capacity. -/
theorem overflow_guard_inv {σ V : Type} (P : PolicyImpl σ (Entry V)) (Q : σ → Prop)
    (cap : Nat)
    (hQrem : ∀ s k, Q s → Q (P.premove s k))
    (hlenrem : ∀ s k, P.plen (P.premove s k) ≤ P.plen s)
    (hQev : ∀ s n, Q s → Q (P.pevict s n))
    (hlenev : ∀ s, Q s → P.plen (P.pevict s 1) ≤ P.plen s - 1)
    (c : CacheState σ) (pol1 : σ) (hQ3 : Q pol1) (hlen3 : P.plen pol1 ≤ cap + 1)
    (hc3 : c.capacity = cap) :
    Q (if c.capacity < P.plen pol1 then
        cacheEvict P { c with pol := pol1 } 1 else { c with pol := pol1 }).pol ∧
    P.plen (if c.capacity < P.plen pol1 then
        cacheEvict P { c with pol := pol1 } 1 else { c with pol := pol1 }).pol ≤ cap ∧
    (if c.capacity < P.plen pol1 then
        cacheEvict P { c with pol := pol1 } 1 else { c with pol := pol1 }).capacity = cap := by
  by_cases hov : c.capacity < P.plen pol1
  · simp only [hov, if_pos]
    obtain ⟨hQ4, hlen4⟩ := removeExpired_pol_inv P Q hQrem hlenrem
      { c with pol := pol1 } (cap + 1) hQ3 hlen3
    simp only [cacheEvict, removeExpired_fst]
    rw [if_neg (by decide : ¬ (1 : Nat) ≤ 0)]
    refine ⟨hQev _ _ hQ4, ?_, hc3⟩
    have := hlenev (removeExpired P { c with pol := pol1 }).2.pol hQ4
    simp only [Nat.sub_zero]
    omega
  · simp only [hov, if_neg, ite_false]
    exact ⟨hQ3, by omega, hc3⟩

/-- One facade operation preserves the policy predicate, the capacity bound
and the capacity field. -/
theorem applyOp_inv {σ V : Type} (P : PolicyImpl σ (Entry V)) (Q : σ → Prop)
    (cap : Nat)
    (hQset : ∀ s k v, Q s → Q (P.pset s k v))
    (hlenset : ∀ s k v, Q s → P.plen s ≤ cap → P.plen (P.pset s k v) ≤ cap + 1)
    (hQget : ∀ s k, Q s → Q (P.pget s k).2)
    (hlenget : ∀ s k, P.plen (P.pget s k).2 ≤ P.plen s)
    (hQrem : ∀ s k, Q s → Q (P.premove s k))
    (hlenrem : ∀ s k, P.plen (P.premove s k) ≤ P.plen s)
    (hQev : ∀ s n, Q s → Q (P.pevict s n))
    (hlenev : ∀ s, Q s → P.plen (P.pevict s 1) ≤ P.plen s - 1)
    (c : CacheState σ) (op : CacheOp V)
    (hQ : Q c.pol) (hlen : P.plen c.pol ≤ cap) (hcapc : c.capacity = cap) :
    Q (applyOp P c op).pol ∧ P.plen (applyOp P c op).pol ≤ cap ∧
    (applyOp P c op).capacity = cap := by
  cases op with
  | set k v =>
    show Q (cacheSet P c k v).pol ∧ P.plen (cacheSet P c k v).pol ≤ cap ∧
      (cacheSet P c k v).capacity = cap
    simp only [cacheSet]
    refine overflow_guard_inv P Q cap hQrem hlenrem hQev hlenev _ _ ?_ ?_ ?_
    · exact hQset _ _ _ hQ
    · exact hlenset _ _ _ hQ hlen
    · exact hcapc
  | setnx k v ttl =>
    show Q (cacheSetNX P c k v ttl).pol ∧ P.plen (cacheSetNX P c k v ttl).pol ≤ cap ∧
      (cacheSetNX P c k v ttl).capacity = cap
    have hQg : Q (P.pget c.pol k).2 := hQget _ _ hQ
    have hleng : P.plen (P.pget c.pol k).2 ≤ cap := Nat.le_trans (hlenget _ _) hlen
    simp only [cacheSetNX]
    refine overflow_guard_inv P Q cap hQrem hlenrem hQev hlenev _ _ ?_ ?_ ?_
    · split <;> (rw [emplace_pol]; exact hQset _ _ _ hQg)
    · split <;> (rw [emplace_pol]; exact hlenset _ _ _ hQg hleng)
    · split <;> (rw [emplace_capacity]; exact hcapc)
  | remove k =>
    exact ⟨hQrem _ _ hQ, Nat.le_trans (hlenrem _ _) hlen, hcapc⟩

/-- Running any operation sequence preserves the facade invariant. -/
theorem runOps_inv {σ V : Type} (P : PolicyImpl σ (Entry V)) (Q : σ → Prop)
    (cap : Nat)
    (hQset : ∀ s k v, Q s → Q (P.pset s k v))
    (hlenset : ∀ s k v, Q s → P.plen s ≤ cap → P.plen (P.pset s k v) ≤ cap + 1)
    (hQget : ∀ s k, Q s → Q (P.pget s k).2)
    (hlenget : ∀ s k, P.plen (P.pget s k).2 ≤ P.plen s)
    (hQrem : ∀ s k, Q s → Q (P.premove s k))
    (hlenrem : ∀ s k, P.plen (P.premove s k) ≤ P.plen s)
    (hQev : ∀ s n, Q s → Q (P.pevict s n))
    (hlenev : ∀ s, Q s → P.plen (P.pevict s 1) ≤ P.plen s - 1) :
    ∀ (ops : List (CacheOp V)) (c : CacheState σ),
      Q c.pol → P.plen c.pol ≤ cap → c.capacity = cap →
      Q (runOps P c ops).pol ∧ P.plen (runOps P c ops).pol ≤ cap ∧
      (runOps P c ops).capacity = cap := by
  intro ops
  induction ops with
  | nil => intro c hQ hlen hcapc; exact ⟨hQ, hlen, hcapc⟩
  | cons op rest ih =>
    intro c hQ hlen hcapc
    obtain ⟨hQ2, hlen2, hcapc2⟩ := applyOp_inv P Q cap hQset hlenset hQget hlenget
      hQrem hlenrem hQev hlenev c op hQ hlen hcapc
    simpa [runOps, List.foldl_cons] using ih (applyOp P c op) hQ2 hlen2 hcapc2

/-! ## Claim C1 -/

/-- C1, amended (corrected claim): for every capacity `cap ≥ 1` and every
finite sequence of `Set`/`SetNX`/`Remove` operations, the facade keeps
`Len() ≤ cap` after each operation under the LRU, LFU and ARC eviction
policies.  (The claim as stated fails for the NoEviction policy, which
ignores capacity; see the counterexample.) -/
theorem c1_capacity_bound (cap gran : Nat) (ops : List (CacheOp Nat))
    (hcap : 1 ≤ cap) :
    cacheLen lruNatP (runOps lruNatP (newCache (newLRU (Entry Nat) cap) cap gran) ops) ≤ cap ∧
    cacheLen lfuNatP (runOps lfuNatP (newCache (newLFU (Entry Nat) cap) cap gran) ops) ≤ cap ∧
    cacheLen arcNatP (runOps arcNatP (newCache (newARC (Entry Nat) cap) cap gran) ops) ≤ cap := by
  refine ⟨?_, ?_, ?_⟩
  · have h := runOps_inv lruNatP (fun s => s.capacity = cap) cap
      (fun s k v hq => by
        show (lruSet s k v).capacity = cap
        rw [lruSet_capacity]; exact hq)
      (fun s k v hq hlen => by
        show (lruSet s k v).items.length ≤ cap + 1
        have h1 := lruSet_length_le_succ s k v
        have h2 : s.items.length ≤ cap := hlen
        omega)
      (fun s k hq => by
        show (lruGet s k).2.capacity = cap
        rw [lruGet_capacity]; exact hq)
      (fun s k => lruGet_length_le s k)
      (fun s k hq => hq)
      (fun s k => lruRemove_length_le s k)
      (fun s n hq => hq)
      (fun s hq => by
        show (lruEvict s 1).items.length ≤ s.items.length - 1
        rw [lruEvict_length])
      ops (newCache (newLRU (Entry Nat) cap) cap gran) rfl (Nat.zero_le _) rfl
    exact h.2.1
  · have h := runOps_inv lfuNatP (fun _ => True) cap
      (fun s k v _ => trivial)
      (fun s k v _ hlen => by
        show lfuLen (lfuSet s k v) ≤ cap + 1
        have h1 := lfuSet_length_le_succ s k v
        have h2 : lfuLen s ≤ cap := hlen
        omega)
      (fun s k _ => trivial)
      (fun s k => Nat.le_refl _)
      (fun s k _ => trivial)
      (fun s k => by
        show lfuLen (lfuRemove s k) ≤ lfuLen s
        simpa [lfuRemove, lfuLen] using blen_bremove_le k s.buckets)
      (fun s n _ => trivial)
      (fun s _ => lfuEvict_one s)
      ops (newCache (newLFU (Entry Nat) cap) cap gran) trivial (Nat.zero_le _) rfl
    exact h.2.1
  · have h := runOps_inv arcNatP (arcInv cap) cap
      (fun s k v hq => arcSet_inv (⟨0, 0, 0⟩ : Entry Nat) cap hcap s k v hq)
      (fun s k v hq hlen => by
        have h1 := (arcSet_inv (⟨0, 0, 0⟩ : Entry Nat) cap hcap s k v hq).2.2.2.1
        show arcLen (arcSet (⟨0, 0, 0⟩ : Entry Nat) s k v) ≤ cap + 1
        simp only [arcLen, lruLen]
        omega)
      (fun s k hq => (arcGet_inv cap s k hq).1)
      (fun s k => by
        show arcLen (arcGet s k).2 ≤ arcLen s
        have h1 := lruGet_length_le s.t1 k
        have h2 := lruGet_length_le s.t2 k
        simp only [arcGet]
        split <;> (simp only [arcLen, lruLen]; omega))
      (fun s k hq => (arcRemove_inv cap s k hq).1)
      (fun s k => by
        show arcLen (arcRemove s k) ≤ arcLen s
        have h1 := aerase_length_le k s.t1.items
        have h2 := aerase_length_le k s.t2.items
        simp only [arcRemove, arcLen, lruLen, lruRemove]
        omega)
      (fun s n hq => (arcEvict_inv cap s n hq).1)
      (fun s _ => arcEvict_one s)
      ops (newCache (newARC (Entry Nat) cap) cap gran)
      ⟨rfl, rfl, rfl, Nat.zero_le _, Nat.zero_le _⟩ (Nat.zero_le _) rfl
    exact h.2.1

/-- C1 counterexample: with the NoEviction policy and capacity 1, two
`Set`s leave `Len() = 2 > 1` — the capacity bound of the claim fails for
that configured policy. -/
theorem c1_capacity_bound_counterexample :
    cacheLen noopNatP c1NoopRun = 2 ∧ c1NoopRun.capacity = 1 := by
  constructor <;> rfl

/-- C1 witness: the amended bound applied at capacity 1, granularity 1 and
a one-`Set` sequence. -/
theorem c1_capacity_bound_witness :
    1 ≤ 1 ∧
    (cacheLen lruNatP (runOps lruNatP (newCache (newLRU (Entry Nat) 1) 1 1)
      [CacheOp.set "a" 5]) ≤ 1 ∧
    cacheLen lfuNatP (runOps lfuNatP (newCache (newLFU (Entry Nat) 1) 1 1)
      [CacheOp.set "a" 5]) ≤ 1 ∧
    cacheLen arcNatP (runOps arcNatP (newCache (newARC (Entry Nat) 1) 1 1)
      [CacheOp.set "a" 5]) ≤ 1) :=
  ⟨Nat.le_refl 1, c1_capacity_bound 1 1 [CacheOp.set "a" 5] (Nat.le_refl 1)⟩

/-- Absence survives a whole removal fold. -/
theorem afind_foldl_aerase_none {α : Type} (ks : List String)
    (pol : List (String × α)) (k : String) (h : afind k pol = none) :
    afind k (ks.foldl (fun p j => aerase j p) pol) = none := by
  induction ks generalizing pol with
  | nil => exact h
  | cons j rest ih => exact ih (aerase j pol) (afind_aerase_none k j pol h)

/-- Folding removal over a list containing `k` leaves `k` absent. -/
theorem afind_foldl_aerase {α : Type} (ks : List String)
    (pol : List (String × α)) (k : String) (hk : k ∈ ks) :
    afind k (ks.foldl (fun p j => aerase j p) pol) = none := by
  induction ks generalizing pol with
  | nil => cases hk
  | cons j rest ih =>
    rcases List.mem_cons.mp hk with rfl | hmem
    · exact afind_foldl_aerase_none rest (aerase k pol) k (afind_aerase_self k pol)
    · exact ih (aerase j pol) hmem

/-! ## Claim C2 -/

/-- C2 (code bug): the eviction cascade never observes the sweep's removal
count — `removeExpired` returns `removeCount = 0` for every state because
the loop never increments it — so `policy.Evict` is always invoked with the
full count.  At the concrete input (LFU policy, capacity 1, granularity 1:
`SetNX("k1", ttl 0)` then `SetNX("k2", ttl 5)`) the sweep inside the
cascade removes `k1` (one entry, which is ≥ n = 1, so by the claim the
policy evict must not run), yet `k2` is also evicted by the policy and the
cache ends empty. -/
theorem c2_sweep_count_ignored :
    (∀ c : CacheState (LFUCacheM (Entry Nat)), (removeExpired lfuNatP c).1 = 0) ∧
    cacheLen lfuNatP c2Run = 0 ∧
    bfind "k1" c2Run.pol.buckets = none ∧
    bfind "k2" c2Run.pol.buckets = none :=
  ⟨fun c => removeExpired_fst lfuNatP c, by decide, by decide, by decide⟩

/-! ## Claim C3 -/

/-- C3 (code bug): `removeExpired` walks downward from `current_epoch` and
returns at the first missing bucket, so a gap shadows older due buckets.
With `current_epoch = 1`, a due bucket at index 0 holding `b` and no bucket
at index 1, the sweep returns immediately: the bucket and the key survive,
contradicting the claim that every bucket with index ≤ `current_epoch` is
drained. -/
theorem c3_gap_shadows_due_buckets :
    (removeExpired noopNatP c3Gap).2.ttlMap = [(0, ["b"])] ∧
    afind "b" (removeExpired noopNatP c3Gap).2.pol = some ⟨1, 0, 0⟩ ∧
    c3Gap.epoch = 1 :=
  ⟨by decide, by decide, rfl⟩

/-! ## Claim C4 -/

/-- C4 counterexample: granularity 10, `SetNX("a", 7, ttl 5)` lands in
bucket 0 with a finite epoch `0 ≤ current_epoch = 0`, so by the claim
`Get("a")` must report absence; the code returns the value. -/
theorem c4_get_stale_counterexample :
    afind "a" c4Run.pol = some ⟨7, 0, 0⟩ ∧
    c4Run.epoch = 0 ∧
    (0 : Nat) ≠ U64MAX ∧
    (cacheGet noopNatP c4Run "a").1 = some 7 ∧
    (cacheGet noopNatP c4Run "a").1 ≠ none :=
  ⟨by decide, rfl, by decide, by decide, by decide⟩

/-- C4, amended (corrected claim): `Get` performs no expiry check — it
returns the stored value whenever the policy lookup hits, even when the
entry's epoch is finite and at most `current_epoch`; expired entries are
only reclaimed by the sweeper or the eviction cascade. -/
theorem c4_get_no_expiry_check {σ V : Type} (P : PolicyImpl σ (Entry V))
    (c : CacheState σ) (key : String) (e : Entry V) (pol2 : σ)
    (hget : P.pget c.pol key = (some e, pol2)) (hstale : e.epoch ≤ c.epoch) :
    (cacheGet P c key).1 = some e.value := by
  simp [cacheGet, hget]

/-- C4 witness: the amended statement at the concrete stale entry. -/
theorem c4_get_no_expiry_check_witness :
    noopNatP.pget c4Run.pol "a" = (some ⟨7, 0, 0⟩, c4Run.pol) ∧
    (⟨7, 0, 0⟩ : Entry Nat).epoch ≤ c4Run.epoch ∧
    (cacheGet noopNatP c4Run "a").1 = some (⟨7, 0, 0⟩ : Entry Nat).value :=
  ⟨rfl, by decide,
    c4_get_no_expiry_check noopNatP c4Run "a" ⟨7, 0, 0⟩ c4Run.pol rfl (by decide)⟩

/-! ## Claim C5 -/

/-- C5 counterexample: with granularity 2, epoch 5 and ttl 1,
`emplaceToTTLBucket` returns bucket index 5 (floor division), not the
claimed `5 + ⌈1/2⌉ = 6`; in particular a TTL shorter than one granularity
does not land one tick above the current epoch. -/
theorem c5_ceiling_counterexample :
    ((emplaceToTTLBucket
      ({ pol := [], capacity := 3, epoch := 5, granularity := 2, ttlMap := [] } :
        CacheState (NoopState (Entry Nat))) "k" 1).1).1 = 5 ∧
    ((emplaceToTTLBucket
      ({ pol := [], capacity := 3, epoch := 5, granularity := 2, ttlMap := [] } :
        CacheState (NoopState (Entry Nat))) "k" 1).1).1 ≠ 6 :=
  ⟨by decide, by decide⟩

/-- C5, amended (corrected claim): bucket placement uses floor division —
`emplaceToTTLBucket` assigns index `current_epoch + ttl / granularity`
(uint64 wrap aside), so a TTL shorter than one granularity lands at the
current epoch itself, not one tick above. -/
theorem c5_bucket_floor {σ : Type} (c : CacheState σ) (key : String) (ttl : Nat)
    (hgran : 0 < c.granularity) (hsmall : ttl / c.granularity + c.epoch < U64) :
    ((emplaceToTTLBucket c key ttl).1).1 = c.epoch + ttl / c.granularity ∧
    (ttl < c.granularity → ((emplaceToTTLBucket c key ttl).1).1 = c.epoch) := by
  have hidx : ((emplaceToTTLBucket c key ttl).1).1 =
      (ttl / c.granularity + c.epoch) % U64 := by
    simp only [emplaceToTTLBucket]
    split <;> rfl
  rw [hidx, Nat.mod_eq_of_lt hsmall]
  constructor
  · omega
  · intro hlt
    have := Nat.div_eq_of_lt hlt
    omega

/-- C5 witness: floor placement at granularity 2, epoch 5, ttl 1. -/
theorem c5_bucket_floor_witness :
    0 < (2 : Nat) ∧ (1 : Nat) / 2 + 5 < U64 ∧
    (((emplaceToTTLBucket
      ({ pol := [], capacity := 3, epoch := 5, granularity := 2, ttlMap := [] } :
        CacheState (NoopState (Entry Nat))) "k" 1).1).1 = 5 + 1 / 2 ∧
    ((1 : Nat) < 2 → ((emplaceToTTLBucket
      ({ pol := [], capacity := 3, epoch := 5, granularity := 2, ttlMap := [] } :
        CacheState (NoopState (Entry Nat))) "k" 1).1).1 = 5)) :=
  ⟨by decide, by decide,
    c5_bucket_floor
      ({ pol := [], capacity := 3, epoch := 5, granularity := 2, ttlMap := [] } :
        CacheState (NoopState (Entry Nat))) "k" 1 (by decide) (by decide)⟩

/-! ## Claim C6 -/

/-- C6 (code bug): `Remove` never unplaces the TTL binding.  After
`SetNX("a", 5, ttl 10)` (capacity 10, granularity 1) and `Remove("a")`, the
policy no longer holds `a` but bucket 10 still lists it — the converse
direction of the coherence invariant (every key listed in a bucket belongs
to a live entry) is violated in a reachable state. -/
theorem c6_remove_leaves_ttl_binding :
    bfind "a" c6Run.pol.buckets = none ∧
    tfind 10 c6Run.ttlMap = some ["a"] :=
  ⟨by decide, by decide⟩

/-! ## Claim C7 -/

/-- C7 counterexample: granularity 1, `SetNX("a", 1, ttl 1)` places `a` in
bucket 1; the subsequent `Set("a", 2)` stores the no-expiry epoch
`math.MaxUint64` but leaves `a` listed in bucket 1.  Two sweeper ticks
later the entry is gone: the sweeper removed an entry whose most recent
write was a `Set` with no expiry, so a key listed in a due bucket need not
be stale. -/
theorem c7_set_entry_swept_counterexample :
    bfind "a" c7Mid.pol.buckets = some ⟨2, U64MAX, 0⟩ ∧
    tfind 1 c7Mid.ttlMap = some ["a"] ∧
    (cacheGet lfuNatP c7End "a").1 = none ∧
    cacheLen lfuNatP c7End = 0 :=
  ⟨by decide, by decide, by decide, by decide⟩

/-- One found-bucket step of the sweep loop. -/
theorem sweepLoop_succ_found {σ α : Type} (P : PolicyImpl σ α)
    (fuel cnt counter : Nat) (pol : σ) (m : List (Nat × List String))
    (bucket : List String) (hb : tfind counter m = some bucket) :
    sweepLoop P (Nat.succ fuel) cnt counter pol m =
      sweepLoop P fuel cnt ((counter + U64MAX) % U64)
        (bucket.foldl (fun p k => P.premove p k) pol) (terase counter m) := by
  simp only [sweepLoop, hb]

/-- C7, amended (corrected claim): the sweeper removes every key listed in
the bucket at the current epoch regardless of the entry's stored epoch —
in particular an entry most recently written by `Set` with the no-expiry
epoch is removed whenever its key is still listed in a due bucket reached
by the sweep. -/
theorem c7_sweep_removes_listed_keys (c : CacheState (NoopState (Entry Nat)))
    (ks : List String) (k : String)
    (hb : tfind c.epoch c.ttlMap = some ks) (hk : k ∈ ks) :
    afind k (removeExpired noopNatP c).2.pol = none := by
  show afind k (sweepLoop noopNatP (U64 + 1) 0 c.epoch c.pol c.ttlMap).2.1 = none
  have hstep : sweepLoop noopNatP (U64 + 1) 0 c.epoch c.pol c.ttlMap =
      sweepLoop noopNatP U64 0 ((c.epoch + U64MAX) % U64)
        (ks.foldl (fun p j => noopNatP.premove p j) c.pol)
        (terase c.epoch c.ttlMap) :=
    sweepLoop_succ_found noopNatP U64 0 c.epoch c.pol c.ttlMap ks hb
  rw [hstep]
  have habs : afind k (ks.foldl (fun p j => noopNatP.premove p j) c.pol) = none :=
    afind_foldl_aerase ks c.pol k hk
  exact sweepLoop_pol_pred noopNatP (fun s => afind k s = none)
    (fun s j hs => afind_aerase_none k j s hs) U64 0 _ _ _ habs

/-- C7 witness: a due bucket at epoch 2 listing `a`, whose entry carries the
no-expiry epoch; the sweep still removes it. -/
theorem c7_sweep_removes_listed_keys_witness :
    tfind c7In.epoch c7In.ttlMap = some ["a"] ∧ "a" ∈ ["a"] ∧
    afind "a" (removeExpired noopNatP c7In).2.pol = none :=
  ⟨rfl, by decide,
    c7_sweep_removes_listed_keys c7In ["a"] "a" rfl (by decide)⟩

/-! ## Claim C8 -/

/-- C8 counterexample: after inserting `a` into a fresh LFU cache, `a` sits
in the `freq = 0` bucket; `Get("a")` returns the value but the item stays
in the `freq = 0` bucket instead of moving to a `freq = 1` bucket. -/
theorem c8_lookup_counterexample :
    lfuFreqOf c8Lfu "a" = some 0 ∧
    (lfuGet c8Lfu "a").1 = some 1 ∧
    lfuFreqOf (lfuGet c8Lfu "a").2 "a" = some 0 ∧
    lfuFreqOf (lfuGet c8Lfu "a").2 "a" ≠ some (0 + 1) :=
  ⟨by decide, by decide, by decide, by decide⟩

/-- C8, amended (corrected claim): `LFUCache.Get` returns the stored value
without touching frequency metadata; over a lookup-only trace the frequency
bucket of every key is constant, not strictly increasing. -/
theorem c8_lookup_no_frequency_update {α : Type} (s : LFUCacheM α)
    (ks : List String) (k : String) :
    (lfuGet s k).1 = bfind k s.buckets ∧
    lfuFreqOf (lfuGetTrace s ks) k = lfuFreqOf s k := by
  constructor
  · rfl
  · induction ks generalizing s with
    | nil => rfl
    | cons j rest ih =>
      simpa [lfuGetTrace, lfuGet, List.foldl_cons] using ih ((lfuGet s j).2)

/-! ## Claim C9 -/

/-- C9 (code bug): on a `B1` ghost hit the source calls `replcae(true)` and
removes the key from `b2`, not `b1`.  First trace (capacity 2, `a b c`
then `a` again): the ghost hit on `a` adapts `prefer` to 1 and inserts
`(a, 9)` into `T2` as claimed, but `a` stays in `B1` — the claim says it is
dropped from `B1`.  Second trace (continue with `d` then `b`): the ghost
hit on `b` has `|T1| = 2 = prefer` after adaptation, and `replcae(true)`
demotes `c` from `T1` into `B1`; the claimed `replace(in_b2=false)` would
have probed the empty `T2` and demoted nothing, so `c` would have stayed
resident. -/
theorem c9_b1_ghost_hit_divergence :
    (afind "a" c9Pre.b1.items).isSome = true ∧
    afind "a" c9Pre.t1.items = none ∧
    afind "a" c9Pre.t2.items = none ∧
    (afind "a" c9Post.b1.items).isSome = true ∧
    afind "a" c9Post.t2.items = some 9 ∧
    c9Post.prefer = 1 ∧
    (afind "b" c9Pre2.b1.items).isSome = true ∧
    c9Pre2.t1.items.length = 2 ∧
    c9Pre2.t2.items = [] ∧
    (afind "b" c9Post2.b1.items).isSome = true ∧
    afind "c" c9Post2.t1.items = none ∧
    (afind "c" c9Post2.b1.items).isSome = true ∧
    c9Post2.prefer = 2 :=
  ⟨by decide, by decide, by decide, by decide, by decide, by decide, by decide,
   by decide, by decide, by decide, by decide, by decide, by decide⟩

/-! ## Claim C10 -/

/-- Chain lemma for the wrap-around sweep: if every index from the counter
down to 0 has a bucket and the far-future bucket `2^64 - 1` exists, the
downward loop erases the far-future bucket and removes its keys after
wrapping past zero. -/
theorem sweep_chain_wrap (j : Nat) :
    ∀ (pol : NoopState (Entry Nat)) (m : List (Nat × List String))
      (cnt fuel : Nat) (ks : List String),
      j < U64MAX → j + 2 ≤ fuel →
      (∀ i, i ≤ j → (tfind i m).isSome = true) →
      tfind U64MAX m = some ks →
      tfind U64MAX (sweepLoop noopNatP fuel cnt j pol m).2.2 = none ∧
      ∀ k ∈ ks, afind k (sweepLoop noopNatP fuel cnt j pol m).2.1 = none := by
  induction j with
  | zero =>
    intro pol m cnt fuel ks hlt hfuel hall hfar
    obtain ⟨f, rfl⟩ : ∃ f, fuel = Nat.succ (Nat.succ f) := ⟨fuel - 2, by omega⟩
    obtain ⟨b0, hb0⟩ := Option.isSome_iff_exists.mp (hall 0 (Nat.le_refl 0))
    rw [sweepLoop_succ_found noopNatP _ _ _ _ _ _ hb0]
    have e0 : (0 + U64MAX) % U64 = U64MAX := by
      rw [Nat.zero_add]
      exact Nat.mod_eq_of_lt (by decide)
    rw [e0]
    have hfar1 : tfind U64MAX (terase 0 m) = some ks := by
      rw [tfind_terase, if_neg (by decide : ¬ (U64MAX = 0))]
      exact hfar
    rw [sweepLoop_succ_found noopNatP _ _ _ _ _ _ hfar1]
    constructor
    · apply sweepLoop_tfind_none
      rw [tfind_terase, if_pos rfl]
    · intro k hkks
      have habs : afind k (ks.foldl (fun p j2 => noopNatP.premove p j2)
          (b0.foldl (fun p j2 => noopNatP.premove p j2) pol)) = none :=
        afind_foldl_aerase ks _ k hkks
      exact sweepLoop_pol_pred noopNatP (fun s => afind k s = none)
        (fun s j2 hs => afind_aerase_none k j2 s hs) _ _ _ _ _ habs
  | succ j ih =>
    intro pol m cnt fuel ks hlt hfuel hall hfar
    obtain ⟨f, rfl⟩ : ∃ f, fuel = Nat.succ f := ⟨fuel - 1, by omega⟩
    obtain ⟨b, hb⟩ := Option.isSome_iff_exists.mp (hall (j + 1) (Nat.le_refl _))
    rw [sweepLoop_succ_found noopNatP _ _ _ _ _ _ hb]
    have h64 : U64MAX + 1 = U64 := by decide
    have hjlt : j < U64 := by omega
    have ecnt : (j + 1 + U64MAX) % U64 = j := by
      have h1 : j + 1 + U64MAX = j + U64 := by omega
      rw [h1, Nat.add_mod_right]
      exact Nat.mod_eq_of_lt hjlt
    rw [ecnt]
    apply ih
    · omega
    · omega
    · intro i hi
      rw [tfind_terase, if_neg (by omega : ¬ i = j + 1)]
      exact hall i (by omega)
    · rw [tfind_terase, if_neg (by omega : ¬ U64MAX = j + 1)]
      exact hfar

/-- C10 (confirmed): the downward loop counter of `removeExpired` is a
`uint64`, its guard is vacuous, and after processing bucket 0 it wraps to
`2^64 - 1`.  For any state whose TTL map has a bucket at every index from
`current_epoch` down to 0 and also a bucket at `2^64 - 1`, the sweep drops
the far-future bucket and removes every key it listed from the policy. -/
theorem c10_wraparound_sweeps_far_future (c : CacheState (NoopState (Entry Nat)))
    (ks : List String)
    (hall : ∀ i, i ≤ c.epoch → (tfind i c.ttlMap).isSome = true)
    (hfar : tfind U64MAX c.ttlMap = some ks)
    (hlt : c.epoch < U64MAX) :
    tfind U64MAX (removeExpired noopNatP c).2.ttlMap = none ∧
    ∀ k ∈ ks, afind k (removeExpired noopNatP c).2.pol = none := by
  have h64 : U64MAX + 1 = U64 := by decide
  have hfuel : c.epoch + 2 ≤ U64 + 1 := by omega
  exact sweep_chain_wrap c.epoch c.pol c.ttlMap 0 (U64 + 1) ks hlt hfuel hall hfar

/-- C10 witness: `current_epoch = 0` with buckets at 0 and at `2^64 - 1`;
the far-future bucket is erased and its key `y` is removed. -/
theorem c10_wraparound_witness :
    (∀ i, i ≤ c10In.epoch → (tfind i c10In.ttlMap).isSome = true) ∧
    tfind U64MAX c10In.ttlMap = some ["y"] ∧
    c10In.epoch < U64MAX ∧
    (tfind U64MAX (removeExpired noopNatP c10In).2.ttlMap = none ∧
      ∀ k ∈ ["y"], afind k (removeExpired noopNatP c10In).2.pol = none) := by
  have h1 : ∀ i, i ≤ c10In.epoch → (tfind i c10In.ttlMap).isSome = true := by decide
  have h2 : tfind U64MAX c10In.ttlMap = some ["y"] := by decide
  have h3 : c10In.epoch < U64MAX := by decide
  exact ⟨h1, h2, h3, c10_wraparound_sweeps_far_future c10In ["y"] h1 h2 h3⟩
